import Mathlib

/-!
Verification of the mean-variance portfolio analytics core
(`src/portfolio_core.py`) against its natural-language specification.

The Python code works on numpy/pandas float arrays.  We embed it shallowly:

* exact numeric values are rationals (`ℚ`);
* IEEE special values produced by the code (`np.sqrt` of a negative number,
  division by zero) are modelled explicitly by the type `FVal`
  (finite / +infinity / -infinity / NaN);
* `np.sqrt` on non-negative inputs is a parameter `sq : ℚ → ℚ`
  (the exact real square root is irrational in general; every theorem is
  parametric in `sq`, so it holds in particular for the true square root,
  with the properties the code relies on taken as hypotheses);
* `np.log` is likewise a parameter `lg : ℚ → ℚ`;
* pandas reductions that yield NaN on too-few observations
  (`mean` of an empty column, `cov` with fewer than two rows, ddof = 1)
  return `Option ℚ`, `none` standing for NaN;
* the scipy SLSQP solver and the Dirichlet random draws are external
  inputs: they enter the embedding as explicit function/list parameters,
  and theorems quantify over all their possible outputs.
-/

namespace PortfolioCore

/-- IEEE-style value domain: a finite rational, plus infinity, minus
infinity, or NaN. -/
inductive FVal where
  | fin : ℚ → FVal
  | inf : FVal
  | ninf : FVal
  | nan : FVal
deriving DecidableEq, Repr

/-- IEEE division on `FVal` (no signed zero: a finite numerator divided by
zero takes the sign of the numerator, and `0 / 0` is NaN, as in numpy). -/
def divE : FVal → FVal → FVal
  | FVal.fin a, FVal.fin b =>
      if b = 0 then
        if 0 < a then FVal.inf else if a < 0 then FVal.ninf else FVal.nan
      else FVal.fin (a / b)
  | FVal.fin _, FVal.inf => FVal.fin 0
  | FVal.fin _, FVal.ninf => FVal.fin 0
  | FVal.inf, FVal.fin b => if b < 0 then FVal.ninf else FVal.inf
  | FVal.ninf, FVal.fin b => if b < 0 then FVal.inf else FVal.ninf
  | _, _ => FVal.nan

/-- `np.sqrt`: NaN on a negative radicand, otherwise the (abstracted)
square root `sq`. -/
def sqrtE (sq : ℚ → ℚ) (x : ℚ) : FVal :=
  if x < 0 then FVal.nan else FVal.fin (sq x)

/-- numpy dot product `x @ y` of two 1-d arrays. -/
def dotL (xs ys : List ℚ) : ℚ :=
  (List.zipWith (fun a b => a * b) xs ys).sum

/-- numpy vector-matrix product `w @ M` (`M` stored as a list of rows):
component `j` is `sum_i w_i * M_i_j`. -/
def vecMat (w : List ℚ) (M : List (List ℚ)) : List ℚ :=
  (List.range (M.headD []).length).map
    (fun j => dotL w (M.map (fun row => row.getD j 0)))

/-- The radicand `w @ sigma.values @ w` exactly as `portfolio_performance`
computes it: vector-matrix product first, then dot with `w`. -/
def quadSrc (w : List ℚ) (M : List (List ℚ)) : ℚ :=
  dotL (vecMat w M) w

/-- The radicand as `simulate_random_portfolios` computes it for one draw:
`np.einsum("ij,jk,ik->i", w, sigma.values, w)` restricted to row `i` is
`sum_j w_j * (sum_k M_j_k * w_k)`. -/
def einsumQuad (w : List ℚ) (M : List (List ℚ)) : ℚ :=
  (List.zipWith (fun wj row => wj * dotL row w) w M).sum

/-- `portfolio_performance(w, mu, sigma, rf)` from `portfolio_core.py`:
`ret = w @ mu`; `vol = np.sqrt(w @ sigma.values @ w)`;
`sharpe = (ret - rf) / vol if vol > 0 else np.nan`
(a NaN volatility fails the `vol > 0` test, so Sharpe is NaN then too). -/
def portfolio_performance (sq : ℚ → ℚ) (w mu : List ℚ) (M : List (List ℚ))
    (rf : ℚ) : ℚ × FVal × FVal :=
  let ret := dotL w mu
  let vol := sqrtE sq (quadSrc w M)
  let sharpe :=
    match vol with
    | FVal.fin s => if 0 < s then FVal.fin ((ret - rf) / s) else FVal.nan
    | _ => FVal.nan
  (ret, vol, sharpe)

/-- `simulate_random_portfolios(mu, sigma, n, rf)` from `portfolio_core.py`,
with the Dirichlet draws `w` supplied as the explicit input `draws`
(the random sampling is external to the analytics):
`ret = w @ mu.values`; `vol = np.sqrt(np.einsum("ij,jk,ik->i", w, S, w))`;
the sharpe column is the unguarded elementwise quotient `(ret - rf) / vol`.
One output row per draw, in draw order. -/
def simulate_random_portfolios (sq : ℚ → ℚ) (draws : List (List ℚ))
    (mu : List ℚ) (M : List (List ℚ)) (rf : ℚ) : List (ℚ × FVal × FVal) :=
  draws.map (fun w =>
    let ret := dotL w mu
    let vol := sqrtE sq (einsumQuad w M)
    (ret, vol, divE (FVal.fin (ret - rf)) vol))

/-- The spec formula `ret = w·mu` (§4.2): the dot product written as an
index sum. -/
def retSpec (w mu : List ℚ) : ℚ :=
  ∑ i ∈ Finset.range w.length, w.getD i 0 * mu.getD i 0

/-- The spec radicand `wᵗ · sigma · w` (§4.2) written as a double index
sum. -/
def radicandSpec (w : List ℚ) (M : List (List ℚ)) : ℚ :=
  ∑ i ∈ Finset.range w.length, ∑ j ∈ Finset.range w.length,
    w.getD i 0 * (M.getD i []).getD j 0 * w.getD j 0

/-- The row-wise return table of `prepare_returns`:
`r = np.log(prices / prices.shift(1)).dropna()`.
`prices` is the price table as a list of rows (oldest first); row `t` of the
result is the elementwise `log(prices[t+1] / prices[t])`, and the first
(all-NaN) row of the shifted quotient has been dropped. -/
def returnRows (lg : ℚ → ℚ) (prices : List (List ℚ)) : List (List ℚ) :=
  (prices.zip (prices.drop 1)).map
    (fun pr => (pr.2.zip pr.1).map (fun ab => lg (ab.1 / ab.2)))

/-- Column `j` of a row-major table. -/
def colL (r : List (List ℚ)) (j : ℕ) : List ℚ :=
  r.map (fun row => row.getD j 0)

/-- pandas `Series.mean`: NaN (`none`) on an empty column. -/
def meanOpt (xs : List ℚ) : Option ℚ :=
  if xs.length = 0 then none else some (xs.sum / (xs.length : ℚ))

/-- pandas `DataFrame.cov` entry for columns `xs`, `ys` (ddof = 1):
NaN (`none`) with fewer than two observations, else the sample covariance
`sum_t (xs_t - mean xs) * (ys_t - mean ys) / (m - 1)`. -/
def covOpt (xs ys : List ℚ) : Option ℚ :=
  if xs.length < 2 then none
  else
    let m : ℚ := (xs.length : ℚ)
    let mx := xs.sum / m
    let my := ys.sum / m
    some ((List.zipWith (fun a b => a * b)
      (xs.map (fun a => a - mx)) (ys.map (fun b => b - my))).sum / (m - 1))

/-- `prepare_returns(prices, periods)` from `portfolio_core.py`:
returns `(r, r.mean() * periods, r.cov() * periods)`, with `np.log`
abstracted as `lg`.  The column count is read off the first price row. -/
def prepare_returns (lg : ℚ → ℚ) (prices : List (List ℚ)) (periods : ℚ) :
    List (List ℚ) × List (Option ℚ) × List (List (Option ℚ)) :=
  let r := returnRows lg prices
  let n := (prices.headD []).length
  (r,
   (List.range n).map (fun j => (meanOpt (colL r j)).map (fun v => v * periods)),
   (List.range n).map (fun i => (List.range n).map
     (fun j => (covOpt (colL r i) (colL r j)).map (fun v => v * periods))))

/-- `np.linspace(a, b, num)` (endpoint included): `[a]` for `num = 1`,
otherwise `a + i * (b - a) / (num - 1)` for `i < num`. -/
def linspace (a b : ℚ) (num : ℕ) : List ℚ :=
  if num = 1 then [a]
  else (List.range num).map
    (fun (i : ℕ) => a + (i : ℚ) * (b - a) / ((num : ℚ) - 1))

/-- Insert a `(return, volatility)` row into a list sorted by ascending
volatility. -/
def insertVol (r : ℚ × ℚ) : List (ℚ × ℚ) → List (ℚ × ℚ)
  | [] => [r]
  | s :: ss => if r.2 ≤ s.2 then r :: s :: ss else s :: insertVol r ss

/-- `df.sort_values("volatility")`: sort the rows by ascending volatility.
(pandas' quicksort is unstable; every property proved below is independent
of how ties are ordered.) -/
def sortByVol : List (ℚ × ℚ) → List (ℚ × ℚ)
  | [] => []
  | r :: rs => insertVol r (sortByVol rs)

/-- `df[df["return"] >= df["return"].cummax()]` on the volatility-sorted
rows: the accumulator is the running maximum return over all rows seen so
far (`none` before the first row; `cummax` includes the current row, and
`ret >= max m ret` is equivalent to `m <= ret`). -/
def cummaxFilter : Option ℚ → List (ℚ × ℚ) → List (ℚ × ℚ)
  | _, [] => []
  | none, r :: rs => r :: cummaxFilter (some r.1) rs
  | some m, r :: rs =>
      if m ≤ r.1 then r :: cummaxFilter (some (max m r.1)) rs
      else cummaxFilter (some (max m r.1)) rs

/-- `efficient_frontier(mu, sigma, points)` from `portfolio_core.py`.
`solve t` abstracts the achieved volatility `_optimize(...)[1]` returned by
the SLSQP solve at target return `t` (the solver is external scipy code;
the theorems below hold for every possible `solve`).  The sweep targets
are `np.linspace(mu.min(), mu.max(), points)`; each row is
`(target, achieved volatility)`; the table is sorted by ascending
volatility and filtered by the running-maximum-return rule. -/
def efficient_frontier (solve : ℚ → ℚ) (muMin muMax : ℚ) (points : ℕ) :
    List (ℚ × ℚ) :=
  let targets := linspace muMin muMax points
  let data := targets.map (fun t => (t, solve t))
  cummaxFilter none (sortByVol data)

/-- Result record of a `scipy.optimize.minimize` call: the final iterate
`x`, the objective value `fval` (`res.fun`), and the convergence flag
`success` (`res.success`), which `_optimize` never inspects. -/
structure SolverResult where
  x : List ℚ
  fval : ℚ
  success : Bool

/-- The starting point `np.ones(n) / n` of `_optimize`. -/
def equalWeight (n : ℕ) : List ℚ :=
  List.replicate n (1 / (n : ℚ))

/-- `_optimize(obj, n, cons)` from `portfolio_core.py`: run the solver
(abstracted as `solver`, which folds in the objective, bounds and
constraints) from the equal-weight starting point and return
`(res.x, res.fun)` unconditionally — the convergence flag is ignored and
nothing is raised. -/
def _optimize (solver : List ℚ → SolverResult) (n : ℕ) : List ℚ × ℚ :=
  let res := solver (equalWeight n)
  (res.x, res.fval)

/-! ### Sum lemmas relating the list computations to index sums -/

lemma zipWith_sum_eq {β : Type} (f : ℚ → β → ℚ) (d : β) :
    ∀ (xs : List ℚ) (ys : List β), ys.length = xs.length →
      (List.zipWith f xs ys).sum =
        ∑ i ∈ Finset.range xs.length, f (xs.getD i 0) (ys.getD i d) := by
  intro xs
  induction xs with
  | nil => intro ys h; simp
  | cons x xs ih =>
    intro ys h
    cases ys with
    | nil => simp at h
    | cons y ys =>
      simp only [List.length_cons, Nat.succ.injEq] at h
      simp only [List.zipWith_cons_cons, List.sum_cons, List.length_cons]
      rw [Finset.sum_range_succ']
      simp only [List.getD_cons_succ, List.getD_cons_zero]
      rw [ih ys h]
      ring

lemma dotL_eq_sum (xs ys : List ℚ) (h : ys.length = xs.length) :
    dotL xs ys = ∑ i ∈ Finset.range xs.length, xs.getD i 0 * ys.getD i 0 :=
  zipWith_sum_eq (fun a b => a * b) 0 xs ys h

lemma getD_map_col :
    ∀ (M : List (List ℚ)) (i j : ℕ),
      (M.map (fun row => row.getD j 0)).getD i 0 = (M.getD i []).getD j 0 := by
  intro M
  induction M with
  | nil => intro i j; simp
  | cons row M ih =>
    intro i j
    cases i with
    | zero => simp
    | succ i => simpa using ih i j

lemma getD_range_map (f : ℕ → ℚ) (n j : ℕ) (h : j < n) :
    ((List.range n).map f).getD j 0 = f j := by
  rw [List.getD_eq_getElem?_getD, List.getElem?_map]
  simp [List.getElem?_range h]

lemma getD_mem_of_lt {α : Type} (l : List α) (n : ℕ) (d : α)
    (h : n < l.length) : l.getD n d ∈ l := by
  rw [List.getD_eq_getElem?_getD, List.getElem?_eq_getElem h]
  exact List.getElem_mem h

/-- The radicand computed by `portfolio_performance`
(`(w @ sigma.values) @ w`) equals the spec's quadratic form
`wᵗ · sigma · w` for a square matrix matching `w`'s dimension. -/
lemma quadSrc_eq_radicandSpec (w : List ℚ) (M : List (List ℚ))
    (hM : M.length = w.length) (hrows : ∀ row ∈ M, row.length = w.length) :
    quadSrc w M = radicandSpec w M := by
  rcases Nat.eq_zero_or_pos w.length with hw0 | hwpos
  · have hw : w = [] := List.length_eq_zero.mp hw0
    have hMnil : M = [] := List.length_eq_zero.mp (by rw [hM, hw0])
    subst hw; subst hMnil
    simp [quadSrc, radicandSpec, vecMat, dotL]
  · have hMne : M ≠ [] := by
      intro hnil
      rw [hnil] at hM
      simp at hM
      omega
    have hhead : M.headD [] ∈ M := by
      cases M with
      | nil => exact absurd rfl hMne
      | cons r rs => simp
    have hncols : (M.headD []).length = w.length := hrows _ hhead
    rw [List.headD_eq_head?] at hncols
    have hlenVM : (vecMat w M).length = w.length := by
      simp [vecMat, hncols]
    unfold quadSrc
    rw [dotL_eq_sum (vecMat w M) w (by rw [hlenVM])]
    rw [hlenVM]
    have hterm : ∀ j ∈ Finset.range w.length,
        (vecMat w M).getD j 0 * w.getD j 0 =
          ∑ i ∈ Finset.range w.length,
            w.getD i 0 * (M.getD i []).getD j 0 * w.getD j 0 := by
      intro j hj
      rw [Finset.mem_range] at hj
      have hvj : (vecMat w M).getD j 0 =
          dotL w (M.map (fun row => row.getD j 0)) := by
        unfold vecMat
        exact getD_range_map _ _ _
          (by rw [List.headD_eq_head?, hncols]; exact hj)
      rw [hvj, dotL_eq_sum w _ (by simp [hM]), Finset.sum_mul]
      refine Finset.sum_congr rfl (fun i _ => ?_)
      rw [getD_map_col]
    rw [Finset.sum_congr rfl hterm, Finset.sum_comm]
    rfl

/-- The radicand computed per draw by `simulate_random_portfolios`
(the einsum contraction) also equals the spec's quadratic form. -/
lemma einsumQuad_eq_radicandSpec (w : List ℚ) (M : List (List ℚ))
    (hM : M.length = w.length) (hrows : ∀ row ∈ M, row.length = w.length) :
    einsumQuad w M = radicandSpec w M := by
  unfold einsumQuad radicandSpec
  rw [zipWith_sum_eq (fun wj row => wj * dotL row w) [] w M hM]
  refine Finset.sum_congr rfl (fun i hi => ?_)
  rw [Finset.mem_range] at hi
  have hrowmem : M.getD i [] ∈ M :=
    getD_mem_of_lt M i [] (by rw [hM]; exact hi)
  rw [dotL_eq_sum (M.getD i []) w (by rw [hrows _ hrowmem]),
    hrows _ hrowmem, Finset.mul_sum]
  refine Finset.sum_congr rfl (fun j _ => ?_)
  ring

lemma dotL_eq_retSpec (w mu : List ℚ) (h : mu.length = w.length) :
    dotL w mu = retSpec w mu :=
  dotL_eq_sum w mu h

/-! ### Sorting and running-maximum-filter lemmas -/

/-- Row order by volatility (second component). -/
def volLE (x y : ℚ × ℚ) : Prop := x.2 ≤ y.2

/-- Row order by return (first component). -/
def retLE (x y : ℚ × ℚ) : Prop := x.1 ≤ y.1

lemma mem_insertVol (r a : ℚ × ℚ) :
    ∀ l : List (ℚ × ℚ), a ∈ insertVol r l ↔ a = r ∨ a ∈ l := by
  intro l
  induction l with
  | nil => simp [insertVol]
  | cons s ss ih =>
    simp only [insertVol]
    split
    · simp
    · simp only [List.mem_cons, ih]
      tauto

lemma mem_sortByVol (a : ℚ × ℚ) :
    ∀ l : List (ℚ × ℚ), a ∈ sortByVol l ↔ a ∈ l := by
  intro l
  induction l with
  | nil => simp [sortByVol]
  | cons r rs ih =>
    simp only [sortByVol, mem_insertVol, ih, List.mem_cons]

lemma pairwise_insertVol (r : ℚ × ℚ) :
    ∀ l : List (ℚ × ℚ), List.Pairwise volLE l →
      List.Pairwise volLE (insertVol r l) := by
  intro l
  induction l with
  | nil => intro _; simp [insertVol, List.pairwise_singleton]
  | cons s ss ih =>
    intro h
    rw [List.pairwise_cons] at h
    obtain ⟨hs, hss⟩ := h
    simp only [insertVol]
    split
    · rename_i hle
      refine List.pairwise_cons.mpr ⟨?_, List.pairwise_cons.mpr ⟨hs, hss⟩⟩
      intro b hb
      rcases List.mem_cons.mp hb with hb | hb
      · rw [hb]; exact hle
      · exact le_trans hle (hs b hb)
    · rename_i hgt
      refine List.pairwise_cons.mpr ⟨?_, ih hss⟩
      intro b hb
      rcases (mem_insertVol r b ss).mp hb with hb | hb
      · rw [hb]; exact le_of_not_le hgt
      · exact hs b hb

lemma pairwise_sortByVol :
    ∀ l : List (ℚ × ℚ), List.Pairwise volLE (sortByVol l) := by
  intro l
  induction l with
  | nil => simp [sortByVol]
  | cons r rs ih => exact pairwise_insertVol r (sortByVol rs) ih

lemma cummaxFilter_sublist :
    ∀ (l : List (ℚ × ℚ)) (m : Option ℚ), List.Sublist (cummaxFilter m l) l := by
  intro l
  induction l with
  | nil => intro m; cases m <;> simp [cummaxFilter]
  | cons r rs ih =>
    intro m
    cases m with
    | none =>
      simpa only [cummaxFilter] using (ih (some r.1)).cons₂ r
    | some m =>
      simp only [cummaxFilter]
      split
      · exact (ih (some (max m r.1))).cons₂ r
      · exact (ih (some (max m r.1))).cons r

/-- Every row kept by the filter started at running maximum `m` has return
at least `m`, and the kept rows have non-decreasing returns. -/
lemma cummaxFilter_some_spec :
    ∀ (l : List (ℚ × ℚ)) (m : ℚ),
      (∀ x ∈ cummaxFilter (some m) l, m ≤ x.1) ∧
        List.Pairwise retLE (cummaxFilter (some m) l) := by
  intro l
  induction l with
  | nil => intro m; simp [cummaxFilter]
  | cons r rs ih =>
    intro m
    simp only [cummaxFilter]
    split
    · rename_i hle
      obtain ⟨ih1, ih2⟩ := ih (max m r.1)
      constructor
      · intro x hx
        rcases List.mem_cons.mp hx with hx | hx
        · rw [hx]; exact hle
        · exact le_trans (le_max_left m r.1) (ih1 x hx)
      · refine List.pairwise_cons.mpr ⟨?_, ih2⟩
        intro b hb
        exact le_trans (le_max_right m r.1) (ih1 b hb)
    · obtain ⟨ih1, ih2⟩ := ih (max m r.1)
      exact ⟨fun x hx => le_trans (le_max_left m r.1) (ih1 x hx), ih2⟩

lemma pairwise_ret_cummaxFilter :
    ∀ l : List (ℚ × ℚ), List.Pairwise retLE (cummaxFilter none l) := by
  intro l
  cases l with
  | nil => simp [cummaxFilter]
  | cons r rs =>
    simp only [cummaxFilter]
    obtain ⟨h1, h2⟩ := cummaxFilter_some_spec rs r.1
    exact List.pairwise_cons.mpr ⟨fun b hb => h1 b hb, h2⟩

lemma linspace_length (a b : ℚ) (k : ℕ) : (linspace a b k).length = k := by
  unfold linspace
  split
  · rename_i h; simp [h]
  · simp

lemma linspace_self (a : ℚ) (k : ℕ) :
    linspace a a k = List.replicate k a := by
  unfold linspace
  split
  · rename_i h; simp [h]
  · refine List.eq_replicate_iff.mpr ⟨by simp, ?_⟩
    intro b hb
    obtain ⟨i, _, rfl⟩ := List.mem_map.mp hb
    ring

lemma insertVol_length (r : ℚ × ℚ) :
    ∀ l : List (ℚ × ℚ), (insertVol r l).length = l.length + 1 := by
  intro l
  induction l with
  | nil => rfl
  | cons s ss ih =>
    simp only [insertVol]
    split
    · simp
    · simp [ih]

lemma sortByVol_length :
    ∀ l : List (ℚ × ℚ), (sortByVol l).length = l.length := by
  intro l
  induction l with
  | nil => rfl
  | cons r rs ih => simp [sortByVol, insertVol_length, ih]

/-! ### Claim theorems -/

/-- Claim C2: for every `mu` and `sigma` — i.e. for every possible family of
per-target solver results `solve` — the table returned by
`efficient_frontier` is sorted by ascending volatility, and along that
order the return column is monotonically non-decreasing. -/
theorem frontier_sorted_monotone (solve : ℚ → ℚ) (a b : ℚ) (k : ℕ) :
    List.Pairwise volLE (efficient_frontier solve a b k) ∧
    List.Pairwise retLE (efficient_frontier solve a b k) := by
  unfold efficient_frontier
  constructor
  · exact List.Pairwise.sublist (cummaxFilter_sublist _ none)
      (pairwise_sortByVol _)
  · exact pairwise_ret_cummaxFilter _

/-- Claim C9: with a zero-width target range (`mu.min() = mu.max()`, as
happens when `n = 1`), the spacing routine is well defined: the sweep is
`points` copies of the single target value, and every row of the resulting
frontier carries that single return value — `efficient_frontier` completes
without error. -/
theorem frontier_zero_width (solve : ℚ → ℚ) (a : ℚ) (k : ℕ) :
    linspace a a k = List.replicate k a ∧
    ∀ r ∈ efficient_frontier solve a a k, r.1 = a := by
  refine ⟨linspace_self a k, ?_⟩
  intro r hr
  unfold efficient_frontier at hr
  have h1 : r ∈ sortByVol ((linspace a a k).map (fun t => (t, solve t))) :=
    (cummaxFilter_sublist _ none).subset hr
  have h2 : r ∈ (linspace a a k).map (fun t => (t, solve t)) :=
    (mem_sortByVol r _).mp h1
  obtain ⟨t, ht, rfl⟩ := List.mem_map.mp h2
  rw [linspace_self a k] at ht
  exact List.eq_of_mem_replicate ht

/-- Claim C10: the running-maximum filter always keeps the
minimum-volatility row (the head of the volatility-sorted table), so the
frontier table is non-empty whenever at least one sweep point was
requested. -/
theorem frontier_nonempty (solve : ℚ → ℚ) (a b : ℚ) (k : ℕ) (h : 1 ≤ k) :
    efficient_frontier solve a b k ≠ [] ∧
    (efficient_frontier solve a b k).head? =
      (sortByVol ((linspace a b k).map (fun t => (t, solve t)))).head? := by
  simp only [efficient_frontier]
  have hlen : (sortByVol ((linspace a b k).map (fun t => (t, solve t)))).length
      = k := by
    rw [sortByVol_length, List.length_map, linspace_length]
  cases hs : sortByVol ((linspace a b k).map (fun t => (t, solve t))) with
  | nil =>
    rw [hs] at hlen
    simp at hlen
    omega
  | cons r rs =>
    exact ⟨by simp [cummaxFilter], by simp [cummaxFilter]⟩

/-- Witness for C10 at a concrete sweep. -/
theorem frontier_nonempty_witness :
    (1 : ℕ) ≤ 3 ∧ efficient_frontier (fun _ => 0) 0 1 3 ≠ [] :=
  ⟨by decide, (frontier_nonempty (fun _ => 0) 0 1 3 (by decide)).1⟩

/-- Claim C7: `_optimize` starts the solve from the equal-weight vector
(each entry `1/n`) and returns the solver's `(x, fun)` pair unchanged, with
no error path — in particular also when the solver reports
non-convergence (`success = false`). -/
theorem optimize_contract (solver : List ℚ → SolverResult) (n : ℕ)
    (_nonconv : (solver (equalWeight n)).success = false) :
    _optimize solver n =
      ((solver (equalWeight n)).x, (solver (equalWeight n)).fval) ∧
    ∀ q ∈ equalWeight n, q = 1 / (n : ℚ) := by
  exact ⟨rfl, fun q hq => List.eq_of_mem_replicate hq⟩

/-- Witness for C7: a solver that does not converge; its result is still
returned unchanged. -/
theorem optimize_contract_witness :
    ((fun (_ : List ℚ) => SolverResult.mk [1] 0 false) (equalWeight 1)).success
      = false ∧
    _optimize (fun (_ : List ℚ) => SolverResult.mk [1] 0 false) 1 = ([1], 0) :=
  ⟨rfl, (optimize_contract (fun _ => SolverResult.mk [1] 0 false) 1 rfl).1⟩

/-- Claim C1: `portfolio_performance` returns the triple
`(w·mu, sqrt(wᵗ·sigma·w), (ret - rf)/vol when vol > 0, NaN otherwise)`
for a square `sigma` matching `w` and a non-negative radicand (the case
the claim's `vol = sqrt(...)` formula describes; a negative radicand is
claim C3's territory). -/
theorem portfolio_performance_spec (sq : ℚ → ℚ) (w mu : List ℚ)
    (M : List (List ℚ)) (rf : ℚ)
    (hmu : mu.length = w.length) (hM : M.length = w.length)
    (hrows : ∀ row ∈ M, row.length = w.length)
    (hr : 0 ≤ radicandSpec w M) :
    portfolio_performance sq w mu M rf =
      (retSpec w mu, FVal.fin (sq (radicandSpec w M)),
        if 0 < sq (radicandSpec w M) then
          FVal.fin ((retSpec w mu - rf) / sq (radicandSpec w M))
        else FVal.nan) := by
  simp only [portfolio_performance, quadSrc_eq_radicandSpec w M hM hrows,
    dotL_eq_retSpec w mu hmu, sqrtE, if_neg (not_lt.mpr hr)]

/-- Witness for C1 on a one-asset portfolio with variance 4 (`sq` evaluates
the true square root there). -/
theorem portfolio_performance_spec_witness :
    (0 : ℚ) ≤ radicandSpec [1] [[4]] ∧
    portfolio_performance (fun _ => 2) [1] [3] [[4]] 1 =
      (3, FVal.fin 2, FVal.fin 1) := by
  have hrad : (0 : ℚ) ≤ radicandSpec [1] [[4]] := by
    norm_num [radicandSpec, Finset.sum_range_succ]
  refine ⟨hrad, ?_⟩
  have h := portfolio_performance_spec (fun _ => 2) [1] [3] [[4]] 1
    (by decide) (by decide) (by decide) hrad
  rw [h]
  norm_num [retSpec, Finset.sum_range_succ]

/-- Counterexample to claim C3: on a negative radicand (non-PSD `sigma`),
`portfolio_performance` does not fail — the repository defines no
`InvalidCovarianceError` and raises nothing; `np.sqrt` just returns NaN and
the function returns a normal triple with NaN volatility and Sharpe. -/
theorem neg_radicand_no_error_cex :
    portfolio_performance (fun _ => 0) [1] [0] [[-1]] 0 =
      (0, FVal.nan, FVal.nan) := by
  norm_num [portfolio_performance, quadSrc, vecMat, dotL, sqrtE,
    List.range_succ]

/-- Amended C3: for every input with a negative radicand,
`portfolio_performance` returns `(w·mu, NaN, NaN)` instead of raising. -/
theorem portfolio_performance_neg_radicand (sq : ℚ → ℚ) (w mu : List ℚ)
    (M : List (List ℚ)) (rf : ℚ) (h : quadSrc w M < 0) :
    portfolio_performance sq w mu M rf = (dotL w mu, FVal.nan, FVal.nan) := by
  simp only [portfolio_performance, sqrtE, if_pos h]

/-- Witness for amended C3. -/
theorem portfolio_performance_neg_radicand_witness :
    quadSrc [1] [[-1]] < 0 ∧
    portfolio_performance (fun _ => 0) [1] [5] [[-1]] 2 =
      (dotL [1] [5], FVal.nan, FVal.nan) := by
  have hq : quadSrc [1] [[(-1 : ℚ)]] < 0 := by
    norm_num [quadSrc, vecMat, dotL, List.range_succ]
  exact ⟨hq,
    portfolio_performance_neg_radicand (fun _ => 0) [1] [5] [[-1]] 2 hq⟩

/-- Counterexample to claim C5: at a zero-volatility draw with excess
return, the sampler's unguarded division `(ret - rf) / vol` produces
+infinity while `portfolio_performance` reports NaN; the rows differ.
(The single draw `[1]` is exactly what a Dirichlet draw over one asset
yields, and `sq 0 = 0` agrees with `np.sqrt`.) -/
theorem simulate_performance_cex :
    simulate_random_portfolios (fun _ => 0) [[1]] [5] [[0]] 0 =
      [(5, FVal.fin 0, FVal.inf)] ∧
    [[(1 : ℚ)]].map (fun w => portfolio_performance (fun _ => 0) w [5] [[0]] 0)
      = [(5, FVal.fin 0, FVal.nan)] ∧
    simulate_random_portfolios (fun _ => 0) [[1]] [5] [[0]] 0 ≠
      [[(1 : ℚ)]].map
        (fun w => portfolio_performance (fun _ => 0) w [5] [[0]] 0) := by
  have h1 : simulate_random_portfolios (fun _ => 0) [[1]] [5] [[0]] 0 =
      [(5, FVal.fin 0, FVal.inf)] := by
    norm_num [simulate_random_portfolios, einsumQuad, dotL, sqrtE, divE]
  have h2 : [[(1 : ℚ)]].map
      (fun w => portfolio_performance (fun _ => 0) w [5] [[0]] 0)
      = [(5, FVal.fin 0, FVal.nan)] := by
    norm_num [portfolio_performance, quadSrc, vecMat, dotL, sqrtE,
      List.range_succ]
  refine ⟨h1, h2, ?_⟩
  rw [h1, h2]
  decide

/-- Amended C5: each row of `simulate_random_portfolios` equals the triple
`portfolio_performance` returns for the same draw, provided every draw
with a non-negative radicand has strictly positive volatility (the guard
the source omits; on a negative radicand both compute NaN and still
agree). -/
theorem simulate_eq_performance (sq : ℚ → ℚ) (draws : List (List ℚ))
    (mu : List ℚ) (M : List (List ℚ)) (rf : ℚ)
    (hrows : ∀ row ∈ M, row.length = M.length)
    (hw : ∀ w ∈ draws, w.length = M.length)
    (hsq : ∀ w ∈ draws, 0 ≤ einsumQuad w M → 0 < sq (einsumQuad w M)) :
    simulate_random_portfolios sq draws mu M rf =
      draws.map (fun w => portfolio_performance sq w mu M rf) := by
  unfold simulate_random_portfolios
  apply List.map_congr_left
  intro w hmem
  have hM : M.length = w.length := (hw w hmem).symm
  have hrows2 : ∀ row ∈ M, row.length = w.length := fun row hrow =>
    (hrows row hrow).trans hM
  have hq : einsumQuad w M = quadSrc w M :=
    (einsumQuad_eq_radicandSpec w M hM hrows2).trans
      (quadSrc_eq_radicandSpec w M hM hrows2).symm
  simp only [portfolio_performance, ← hq]
  by_cases hneg : einsumQuad w M < 0
  · simp only [sqrtE, if_pos hneg, divE]
  · have hpos : 0 < sq (einsumQuad w M) := hsq w hmem (not_lt.mp hneg)
    simp only [sqrtE, if_neg hneg, divE, if_neg (ne_of_gt hpos), if_pos hpos]

/-- Witness for amended C5 on a one-asset draw with variance 4. -/
theorem simulate_eq_performance_witness :
    simulate_random_portfolios (fun _ => 2) [[1]] [5] [[4]] 1 =
      [[(1 : ℚ)]].map
        (fun w => portfolio_performance (fun _ => 2) w [5] [[4]] 1) :=
  simulate_eq_performance (fun _ => 2) [[1]] [5] [[4]] 1
    (by decide) (by decide) (fun w _ _ => by norm_num)

/-! ### Helpers for `prepare_returns` claims -/

lemma zip_self {α : Type} :
    ∀ l : List α, l.zip l = l.map (fun x => (x, x)) := by
  intro l
  induction l with
  | nil => rfl
  | cons x xs ih => simp [List.zip_cons_cons, ih]

lemma getD_zero :
    ∀ (l : List ℚ) (j : ℕ), (∀ y ∈ l, y = 0) → l.getD j 0 = 0 := by
  intro l
  induction l with
  | nil => intro j _; simp
  | cons x xs ih =>
    intro j h
    cases j with
    | zero => simpa using h x (by simp)
    | succ j => simpa using ih j (fun y hy => h y (by simp [hy]))

lemma zipWith_mul_sum_zero :
    ∀ xs ys : List ℚ, (∀ x ∈ xs, x = 0) →
      (List.zipWith (fun a b => a * b) xs ys).sum = 0 := by
  intro xs
  induction xs with
  | nil => intro ys _; simp
  | cons x xs ih =>
    intro ys h
    cases ys with
    | nil => simp
    | cons y ys =>
      simp only [List.zipWith_cons_cons, List.sum_cons]
      rw [h x (by simp), ih ys (fun a ha => h a (by simp [ha]))]
      ring

/-- Counterexample to claim C4: on a single-row price table,
`prepare_returns` does not fail — the repository defines no
`InsufficientDataError` and raises nothing; it returns the empty return
table with NaN mean and NaN covariance. -/
theorem prepare_returns_one_row_cex :
    prepare_returns (fun q => q - 1) [[1]] 252 = ([], [none], [[none]]) := by
  rfl

/-- Amended C4: `prepare_returns` has no error path at all; with fewer than
2 price rows it returns an empty return table, and every annualized mean
and covariance entry is NaN. -/
theorem prepare_returns_few_rows (lg : ℚ → ℚ) (prices : List (List ℚ))
    (p : ℚ) (h : prices.length < 2) :
    (prepare_returns lg prices p).1 = [] ∧
    (∀ v ∈ (prepare_returns lg prices p).2.1, v = none) ∧
    (∀ row ∈ (prepare_returns lg prices p).2.2, ∀ v ∈ row, v = none) := by
  have hzip : prices.zip (prices.drop 1) = [] := by
    have hl : (prices.zip (prices.drop 1)).length = 0 := by
      rw [List.length_zip, List.length_drop]
      omega
    exact List.length_eq_zero.mp hl
  have hr : returnRows lg prices = [] := by
    unfold returnRows
    rw [hzip]
    rfl
  refine ⟨by simp [prepare_returns, hr], ?_, ?_⟩
  · intro v hv
    simp only [prepare_returns, hr] at hv
    obtain ⟨j, _, rfl⟩ := List.mem_map.mp hv
    simp [colL, meanOpt]
  · intro row hrow v hv
    simp only [prepare_returns, hr] at hrow
    obtain ⟨i, _, rfl⟩ := List.mem_map.mp hrow
    obtain ⟨j, _, rfl⟩ := List.mem_map.mp hv
    simp [colL, covOpt]

/-- Witness for amended C4. -/
theorem prepare_returns_few_rows_witness :
    ([[(1 : ℚ)]] : List (List ℚ)).length < 2 ∧
    (prepare_returns (fun q => q - 1) [[(1 : ℚ)]] 252).1 = [] :=
  ⟨by decide, (prepare_returns_few_rows (fun q => q - 1) [[1]] 252
    (by decide)).1⟩

/-- Counterexample to claim C8: on a constant-price series with exactly 2
rows (the minimum the claim admits) the single return row is zero and the
annualized mean is zero, but the covariance entry is NaN, not zero —
pandas' sample covariance (ddof = 1) of one observation divides 0 by 0.
(`lg` here agrees with `np.log` at the only evaluated point: `lg 1 = 0`.) -/
theorem prepare_returns_const_two_rows_cex :
    prepare_returns (fun q => q - 1) [[1], [1]] 252 =
      ([[0]], [some 0], [[none]]) ∧
    some (0 : ℚ) ≠ (none : Option ℚ) := by
  constructor
  · norm_num [prepare_returns, returnRows, colL, meanOpt, covOpt,
      List.range_succ]
  · decide

/-- Amended C8: for a constant-price series with at least 3 rows (at least
2 return observations), `prepare_returns` yields an all-zero return table,
a zero annualized mean vector and a zero covariance matrix.  (With exactly
2 rows the returns and means are still zero but the covariance is NaN.) -/
theorem prepare_returns_const_prices (lg : ℚ → ℚ) (c : List ℚ)
    (prices : List (List ℚ)) (p : ℚ)
    (hlen : 3 ≤ prices.length)
    (hconst : ∀ row ∈ prices, row = c)
    (hc : ∀ x ∈ c, x ≠ 0)
    (hlg : lg 1 = 0) :
    (∀ row ∈ (prepare_returns lg prices p).1, ∀ x ∈ row, x = 0) ∧
    (∀ v ∈ (prepare_returns lg prices p).2.1, v = some 0) ∧
    (∀ row ∈ (prepare_returns lg prices p).2.2, ∀ v ∈ row, v = some 0) := by
  have hzero : ∀ row ∈ returnRows lg prices, ∀ x ∈ row, x = 0 := by
    intro row hrow x hx
    simp only [returnRows, List.mem_map] at hrow
    obtain ⟨⟨p1, p2⟩, hpr, rfl⟩ := hrow
    obtain ⟨h1, h2⟩ := List.of_mem_zip hpr
    rw [hconst _ h1, hconst _ (List.mem_of_mem_drop h2)] at hx
    obtain ⟨ab, hab, rfl⟩ := List.mem_map.mp hx
    rw [zip_self] at hab
    obtain ⟨y, hy, rfl⟩ := List.mem_map.mp hab
    rw [div_self (hc y hy)]
    exact hlg
  have hlenR : 2 ≤ (returnRows lg prices).length := by
    simp only [returnRows, List.length_map, List.length_zip,
      List.length_drop]
    omega
  have hcol : ∀ j, ∀ x ∈ colL (returnRows lg prices) j, x = 0 := by
    intro j x hx
    simp only [colL, List.mem_map] at hx
    obtain ⟨row, hrow, rfl⟩ := hx
    exact getD_zero _ _ (hzero row hrow)
  have hcollen : ∀ j, (colL (returnRows lg prices) j).length =
      (returnRows lg prices).length := by
    intro j
    simp [colL]
  have hmean : ∀ j, meanOpt (colL (returnRows lg prices) j) = some 0 := by
    intro j
    unfold meanOpt
    rw [if_neg (by rw [hcollen]; omega)]
    rw [List.sum_eq_zero (hcol j), zero_div]
  have hcov : ∀ i j, covOpt (colL (returnRows lg prices) i)
      (colL (returnRows lg prices) j) = some 0 := by
    intro i j
    unfold covOpt
    rw [if_neg (by rw [hcollen]; omega)]
    have hxs : (colL (returnRows lg prices) i).sum = 0 :=
      List.sum_eq_zero (hcol i)
    have hys : (colL (returnRows lg prices) j).sum = 0 :=
      List.sum_eq_zero (hcol j)
    simp only [hxs, hys, zero_div, sub_zero, List.map_id']
    rw [zipWith_mul_sum_zero _ _ (hcol i), zero_div]
  refine ⟨?_, ?_, ?_⟩
  · intro row hrow x hx
    exact hzero row hrow x hx
  · intro v hv
    simp only [prepare_returns] at hv
    obtain ⟨j, _, rfl⟩ := List.mem_map.mp hv
    rw [hmean j]
    simp
  · intro row hrow v hv
    simp only [prepare_returns] at hrow
    obtain ⟨i, _, rfl⟩ := List.mem_map.mp hrow
    obtain ⟨j, _, rfl⟩ := List.mem_map.mp hv
    rw [hcov i j]
    simp

/-- Witness for amended C8 on a 3-row constant series: the (only)
annualized mean entry is zero. -/
theorem prepare_returns_const_prices_witness :
    (meanOpt (colL (returnRows (fun q => q - 1) [[2], [2], [2]]) 0)).map
      (fun v => v * (252 : ℚ)) = some 0 :=
  (prepare_returns_const_prices (fun q => q - 1) [2] [[2], [2], [2]] 252
      (by decide) (by decide) (by decide) (by norm_num)).2.1 _
    (by simp [prepare_returns, List.range_succ])

end PortfolioCore
